import Mathlib

/-!
Verification of the batched Metropolis-Hastings sampler core
(Sources/Sampler/metropolis_local_v2.hpp) against its natural-language
specification.  The C++ header is shallowly embedded: `Index` (a signed
machine integer) becomes `Int`, `double`-valued quantum numbers become `ℚ`
(the sampler only copies and compares them, so no rounding is involved),
complex log-amplitudes become `ℂ`, Eigen matrices become lists of rows, and
the random engine becomes explicit streams of draws passed to each
operation.
-/

namespace Netket

/-! ## StepsRange

The C++ struct stores three `Index` fields; `size()` is defined inline in
the header as `(end_ - start_ - 1) / step_ + 1`, with C++ signed division
(truncation towards zero), which `Int.tdiv` models exactly. -/

structure StepsRange where
  start_ : Int
  end_ : Int
  step_ : Int
deriving Repr, DecidableEq

def StepsRange.size (r : StepsRange) : Int :=
  (r.end_ - r.start_ - 1).tdiv r.step_ + 1

/-- Modelled from the spec: the body of `StepsRange::CheckValid` is not in the
source header (only its declaration is).  Per the spec it validates
`start < end` and `stride > 0`, and otherwise fails with an invalid-argument
error, eagerly at construction. -/
def StepsRange.checkValid (a b s : Int) : Except String Unit :=
  if a < b ∧ 0 < s then Except.ok () else Except.error "invalid argument"

/-- The `StepsRange` constructor: unpacks the (start, end, step) tuple and
calls `CheckValid`, surfacing its failure to the caller. -/
def StepsRange.make (steps : Int × Int × Int) : Except String StepsRange :=
  match StepsRange.checkValid steps.1 steps.2.1 steps.2.2 with
  | Except.ok _ => Except.ok ⟨steps.1, steps.2.1, steps.2.2⟩
  | Except.error e => Except.error e

/-- Whether step index `i` is recorded under schedule `r`: `i ≥ start` and
`(i - start) % stride = 0`. -/
def recordedAt (r : StepsRange) (i : Nat) : Bool :=
  decide (r.start_ ≤ (i : Int)) && (((i : Int) - r.start_) % r.step_ == 0)

/-- The indices of the sampling schedule that actually get recorded among
the first `n` step indices. -/
def scheduledSteps (r : StepsRange) (n : Nat) : List Nat :=
  (List.range n).filter (recordedAt r)

/-- The list of step indices in the interval [start, end). -/
def stepInterval (a b : Int) : List Int :=
  (List.range (b - a).toNat).map fun j : Nat => a + (j : Int)

/-! ## Flipper (proposal generator)

The bodies of the member functions of detail::Flipper are not in the source
header (only their declarations and doc comments are), so the operational
definitions below are modelled from the spec, section 4.1.  The random
engine is modelled as explicit draw streams: an arbitrary natural number
per draw, which the sampler reduces into the required range. -/

/-- The chain batch state together with the staged per-chain suggestion:
`state` is the BatchSize x SystemSize matrix of quantum numbers (list of
rows), `localStates` the allowed values, `sites` and `values` the staged
(site, candidate value) suggestion of every chain. -/
structure Flipper where
  localStates : List ℚ
  state : List (List ℚ)
  sites : List Nat
  values : List ℚ
deriving Repr, DecidableEq

def Flipper.BatchSize (f : Flipper) : Nat := f.state.length

def Flipper.SystemSize (f : Flipper) : Nat := (f.state.headD []).length

/-- Modelled from the spec: the candidate value at a site is drawn uniformly
from the local-state set excluding the chain's current value at that site.
A raw draw `r` selects an index into the filtered list; if no alternative
value exists the current value is kept (the spec presupposes a non-trivial
local-state set). -/
def pickExcluding (localStates : List ℚ) (current : ℚ) (r : Nat) : ℚ :=
  let cands := localStates.filter fun v => v != current
  cands.getD (r % cands.length) current

/-- Modelled from the spec: staging a fresh suggestion for every chain — a
uniformly random site, then a value excluding the current one at that site.
The extra `Nat` argument is the chain index, fixing the per-chain draw
order. -/
def stageFrom (localStates : List ℚ) (siteDraws valueDraws : Nat → Nat) :
    List (List ℚ) → Nat → List Nat × List ℚ
  | [], _ => ([], [])
  | row :: rows, i =>
      let site := siteDraws i % row.length
      let v := pickExcluding localStates (row.getD site 0) (valueDraws i)
      let rest := stageFrom localStates siteDraws valueDraws rows (i + 1)
      (site :: rest.1, v :: rest.2)

def Flipper.stage (f : Flipper) (siteDraws valueDraws : Nat → Nat) : Flipper :=
  let sv := stageFrom f.localStates siteDraws valueDraws f.state 0
  { f with sites := sv.1, values := sv.2 }

/-- Modelled from the spec: committing one step — chains with accept = true
take the staged site/value, chains with accept = false retain their row. -/
def commitRows : List (List ℚ) → List Nat → List ℚ → List Bool →
    List (List ℚ)
  | row :: rows, site :: ss, v :: vs, acc :: accs =>
      (if acc then row.set site v else row) :: commitRows rows ss vs accs
  | rows, _, _, _ => rows

/-- The proposed batch: every chain's row with the staged site replaced by
the staged value (the configuration written by Flipper::Read into the
caller's buffer). -/
def proposeRows : List (List ℚ) → List Nat → List ℚ → List (List ℚ)
  | row :: rows, site :: ss, v :: vs => row.set site v :: proposeRows rows ss vs
  | rows, _, _ => rows

/-- Modelled from the spec: one row of RandomState — every site drawn
uniformly from the local-state set. -/
def randomRow (L : List ℚ) (dj : Nat → Nat) : List ℚ → Nat → List ℚ
  | [], _ => []
  | _ :: rest, j => L.getD (dj j % L.length) 0 :: randomRow L dj rest (j + 1)

/-- Modelled from the spec: RandomState draws every site of every chain
uniformly from the local-state set, keeping the shape of the batch. -/
def randomRows (L : List ℚ) (d : Nat → Nat → Nat) :
    List (List ℚ) → Nat → List (List ℚ)
  | [], _ => []
  | row :: rows, i => randomRow L (d i) row 0 :: randomRows L d rows (i + 1)

/-- Modelled from the spec: Flipper::Reset randomizes the whole state and
stages a fresh suggestion for every chain. -/
def Flipper.Reset (f : Flipper) (d : Nat → Nat → Nat)
    (siteDraws valueDraws : Nat → Nat) : Flipper :=
  Flipper.stage { f with state := randomRows f.localStates d f.state 0 }
    siteDraws valueDraws

/-- Modelled from the spec: Flipper::Next commits the staged flips of the
accepted chains and then stages a fresh suggestion for every chain. -/
def Flipper.Next (f : Flipper) (accept : List Bool)
    (siteDraws valueDraws : Nat → Nat) : Flipper :=
  Flipper.stage
    { f with state := commitRows f.state f.sites f.values accept }
    siteDraws valueDraws

/-- No staged self-transitions: the staged site is in range and the staged
value differs from the chain's current value there. -/
def Flipper.Staged (f : Flipper) : Prop :=
  ∀ i, i < f.BatchSize →
    f.sites.getD i 0 < (f.state.getD i []).length ∧
      f.values.getD i 0 ≠ (f.state.getD i []).getD (f.sites.getD i 0) 0

/-- Membership invariant of the batch state: every entry of every row is a
member of the local-state set. -/
def Flipper.StateValid (f : Flipper) : Prop :=
  ∀ row ∈ f.state, ∀ x ∈ row, x ∈ f.localStates

/-- Every staged candidate value is a member of the local-state set. -/
def Flipper.ValuesValid (f : Flipper) : Prop :=
  ∀ v ∈ f.values, v ∈ f.localStates

/-- Every chain row is nonempty (system size is positive). -/
def Flipper.RowsNonempty (f : Flipper) : Prop :=
  ∀ row ∈ f.state, 0 < row.length

/-- The states of the flipper reachable from a freshly constructed `f0`: a
first Reset (the state is uninitialized before it), followed by any sequence
of Reset / Next calls, under arbitrary random draws. -/
inductive Flipper.Reachable (f0 : Flipper) : Flipper → Prop
  | reset0 (d : Nat → Nat → Nat) (sd vd : Nat → Nat) :
      Flipper.Reachable f0 (f0.Reset d sd vd)
  | reset (f : Flipper) (d : Nat → Nat → Nat) (sd vd : Nat → Nat) :
      Flipper.Reachable f0 f → Flipper.Reachable f0 (f.Reset d sd vd)
  | next (f : Flipper) (accept : List Bool) (sd vd : Nat → Nat) :
      Flipper.Reachable f0 f → Flipper.Reachable f0 (f.Next accept sd vd)

/-! ## MetropolisLocalV2 (driver)

The body of MetropolisLocalV2::Next is not in the source header; the header
declares the members proposed_X_, proposed_Y_, current_Y_, randoms_ and
accept_, and the spec, section 4.2, gives the step, so the definitions
below are modelled from the spec.  The variational machine is abstracted as
a function from configurations to complex log-amplitudes. -/

/-- The driver state: the flipper together with the cached per-chain complex
log-amplitudes (current_Y_) and the last acceptance mask (accept_). -/
structure MetropolisLocalV2 where
  flipper : Flipper
  currentY : List ℂ
  accept : List Bool

def MetropolisLocalV2.BatchSize (m : MetropolisLocalV2) : Nat :=
  m.flipper.BatchSize

def MetropolisLocalV2.SystemSize (m : MetropolisLocalV2) : Nat :=
  m.flipper.SystemSize

/-- The proposed configuration of chain `i`: its current row with the staged
site replaced by the staged value (one row of the proposed_X_ buffer). -/
def MetropolisLocalV2.proposedRow (m : MetropolisLocalV2) (i : Nat) :
    List ℚ :=
  (m.flipper.state.getD i []).set (m.flipper.sites.getD i 0)
    (m.flipper.values.getD i 0)

/-- Modelled from the spec: the per-chain acceptance probability — the
squared modulus of the amplitude ratio exp(proposedLogAmp - currentLogAmp),
capped at 1. -/
noncomputable def acceptProb (curr prop : ℂ) : ℝ :=
  min 1 (Complex.abs (Complex.exp (prop - curr)) ^ 2)

/-- The length-B vector of proposed log-amplitudes (proposed_Y_): the model
evaluated on the proposed batch. -/
def MetropolisLocalV2.proposedY (m : MetropolisLocalV2)
    (logPsi : List ℚ → ℂ) : List ℂ :=
  (proposeRows m.flipper.state m.flipper.sites m.flipper.values).map logPsi

/-- Modelled from the spec: the acceptance mask (accept_) — chain i is
accepted iff its fresh uniform draw is below the capped squared-modulus
amplitude-ratio probability. -/
noncomputable def metroAccept (m : MetropolisLocalV2) (logPsi : List ℚ → ℂ)
    (randoms : List ℝ) : List Bool :=
  (List.range m.BatchSize).map fun i =>
    decide (randoms.getD i 0
      < acceptProb (m.currentY.getD i 0) ((m.proposedY logPsi).getD i 0))

/-- Modelled from the spec: MetropolisLocalV2::Next — fill proposed_X_ from
the flipper, evaluate the proposed log-amplitudes, draw one uniform per
chain, accept chain i iff random_i < p_i, advance the flipper with the
acceptance mask, and keep the proposed amplitude for accepted chains and
the prior amplitude for rejected ones. -/
noncomputable def MetropolisLocalV2.Next (m : MetropolisLocalV2)
    (logPsi : List ℚ → ℂ) (randoms : List ℝ) (sd vd : Nat → Nat) :
    MetropolisLocalV2 :=
  { flipper := m.flipper.Next (metroAccept m logPsi randoms) sd vd
    currentY := (List.range m.BatchSize).map fun i =>
      if (metroAccept m logPsi randoms).getD i false
      then (m.proposedY logPsi).getD i 0 else m.currentY.getD i 0
    accept := metroAccept m logPsi randoms }

/-- Modelled from the spec: MetropolisLocalV2::Reset — reset the flipper,
then recompute the amplitude vector from the randomized state via the
model's batch evaluation. -/
def MetropolisLocalV2.Reset (m : MetropolisLocalV2)
    (logPsi : List ℚ → ℂ) (d : Nat → Nat → Nat) (sd vd : Nat → Nat) :
    MetropolisLocalV2 :=
  let fl := m.flipper.Reset d sd vd
  { flipper := fl, currentY := fl.state.map logPsi, accept := m.accept }

/-- The driver states produced by any finite sequence of Reset / Next calls
starting from `m0`. -/
inductive MetropolisLocalV2.Reaches (logPsi : List ℚ → ℂ)
    (m0 : MetropolisLocalV2) : MetropolisLocalV2 → Prop
  | refl : MetropolisLocalV2.Reaches logPsi m0 m0
  | reset (m : MetropolisLocalV2) (d : Nat → Nat → Nat) (sd vd : Nat → Nat) :
      MetropolisLocalV2.Reaches logPsi m0 m →
        MetropolisLocalV2.Reaches logPsi m0 (m.Reset logPsi d sd vd)
  | next (m : MetropolisLocalV2) (randoms : List ℝ) (sd vd : Nat → Nat) :
      MetropolisLocalV2.Reaches logPsi m0 m →
        MetropolisLocalV2.Reaches logPsi m0 (m.Next logPsi randoms sd vd)

/-! ## SampleCollector (ComputeSamples)

The body of ComputeSamples is not in the source header (only its
declaration is), so it is modelled from the spec, section 4.4: `end` total
next() calls, recording read()'s whole-batch output at every scheduled step
index, step-major and chain-minor, with the gradient output present only
when requested.  The driver is abstracted as a state type with a per-step
transition and read accessors. -/

/-- The driver state after `n` next() calls (the step index is passed to the
transition so that each step may consume its own randomness). -/
def iterateNext {St : Type} (next : Nat → St → St) (s0 : St) : Nat → St
  | 0 => s0
  | n + 1 => next n (iterateNext next s0 n)

/-- Modelled from the spec: the collection loop.  For each step index in
order: if the index is scheduled, append the whole-batch configurations,
amplitudes, and (if requested) gradient rows; then advance the driver one
step.  Also returns the final driver state. -/
def collectLoop {St : Type} (next : Nat → St → St)
    (readC : St → List (List ℚ)) (readA : St → List ℂ)
    (readG : St → List (List ℂ)) (r : StepsRange) (wantGrad : Bool) :
    List Nat → St → (List (List ℚ) × List ℂ × List (List ℂ)) × St
  | [], s => (([], [], []), s)
  | i :: rest, s =>
      let tail := collectLoop next readC readA readG r wantGrad rest
        (next i s)
      (((if recordedAt r i then readC s else []) ++ tail.1.1,
        ((if recordedAt r i then readA s else []) ++ tail.1.2.1,
         (if recordedAt r i && wantGrad then readG s else [])
           ++ tail.1.2.2)), tail.2)

/-- Modelled from the spec: ComputeSamples — run the collection loop over
step indices 0, …, end-1 and wrap the gradient rows in an optional that is
absent when gradients were not requested. -/
def ComputeSamples {St : Type} (next : Nat → St → St)
    (readC : St → List (List ℚ)) (readA : St → List ℂ)
    (readG : St → List (List ℂ)) (r : StepsRange) (wantGrad : Bool)
    (s0 : St) :
    List (List ℚ) × List ℂ × Option (List (List ℂ)) × St :=
  let out := collectLoop next readC readA readG r wantGrad
    (List.range r.end_.toNat) s0
  (out.1.1, out.1.2.1, if wantGrad then some out.1.2.2 else none, out.2)

/-! ## GradientEstimator

The body of Gradient is not in the source header (only its declaration is),
so it is modelled from the spec, section 4.6. -/

/-- The mean of a complex vector: the sum divided by the length (zero for
the empty vector, by convention of division by zero). -/
noncomputable def cmean (v : List ℂ) : ℂ := v.sum / (v.length : ℂ)

/-- Column k of the M x P per-sample log-derivative matrix. -/
def column (O : List (List ℂ)) (k : Nat) : List ℂ :=
  O.map fun row => row.getD k 0

/-- Modelled from the spec: Gradient — the Monte-Carlo covariance estimator
grad_k = mean(conj(O_k) * E) - conj(mean(O_k)) * mean(E), one entry per
parameter column. -/
noncomputable def Gradient (E : List ℂ) (O : List (List ℂ)) : List ℂ :=
  (List.range (O.headD []).length).map fun k =>
    cmean (List.zipWith (fun o e => (starRingEnd ℂ) o * e) (column O k) E)
      - (starRingEnd ℂ) (cmean (column O k)) * cmean E

/-! ## LocalValueEstimator (LocalValuesV2)

The body of LocalValuesV2 is not in the source header (only its declaration
is), so it is modelled from the spec, section 4.5: enumerate the connected
configurations of every sample, evaluate their log-amplitudes through the
model in batches of the given width, and form the per-sample sums
localValue(c) = sum over c' of O(c,c') * exp(logAmp(c') - logAmp(c)).  The
operator is abstracted as its connections function. -/

/-- Evaluation of the model on a flat list of configurations in batches of
width `w` (a width of zero behaves like width one): the first batch is
mapped, then the rest is processed recursively. -/
def chunkedMap {α β : Type} (f : α → β) (w : Nat) : List α → List β
  | [] => []
  | x :: xs =>
      f x :: ((xs.take (w - 1)).map f ++ chunkedMap f w (xs.drop (w - 1)))
  termination_by xs => xs.length
  decreasing_by
    simp only [List.length_drop, List.length_cons]
    omega

/-- Per-sample recombination: the flat evaluated log-amplitudes are split
back into the per-sample sections (never mixing samples), and each sample's
connected-term sum is formed against its own log-amplitude. -/
noncomputable def splitCombine : List (List (List ℚ × ℂ)) → List ℂ → List ℂ → List ℂ
  | [], _, _ => []
  | _ :: _, _, [] => []
  | sec :: rest, logs, v :: vs =>
      (List.zipWith (fun (p : List ℚ × ℂ) lg => p.2 * Complex.exp (lg - v))
          sec (logs.take sec.length)).sum
        :: splitCombine rest (logs.drop sec.length) vs

/-- Modelled from the spec: LocalValuesV2 — per-sample local operator
values, with model evaluation batched at width `batchSize`. -/
noncomputable def LocalValuesV2 (samples : List (List ℚ)) (values : List ℂ)
    (logPsi : List ℚ → ℂ) (conns : List ℚ → List (List ℚ × ℂ))
    (batchSize : Nat) : List ℂ :=
  let sections := samples.map conns
  let flat := (sections.map fun sec => sec.map Prod.fst).flatten
  splitCombine sections (chunkedMap logPsi batchSize flat) values

/-! Counting helper: among `0, 1, …, n-1` there are exactly `(n + k - 1) / k`
multiples of a positive `k`. -/

theorem countP_mod_eq_zero (k : Nat) (hk : 0 < k) (n : Nat) :
    (List.range n).countP (fun j => j % k == 0) = (n + k - 1) / k := by
  induction n with
  | zero =>
      simp [Nat.div_eq_of_lt (by omega : k - 1 < k)]
  | succ m ih =>
      rw [List.range_succ, List.countP_append, ih]
      have hsucc : (m + 1 + k - 1) / k = (m + k - 1) / k +
          if k ∣ (m + k - 1) + 1 then 1 else 0 := by
        have h1 : m + 1 + k - 1 = (m + k - 1) + 1 := by omega
        rw [h1, Nat.succ_div]
      have hdv : (k ∣ (m + k - 1) + 1) ↔ (m % k = 0) := by
        have h2 : (m + k - 1) + 1 = m + k := by omega
        rw [h2, Nat.dvd_iff_mod_eq_zero, Nat.add_mod_right]
      rw [hsucc]
      by_cases hm : m % k = 0
      · rw [if_pos (hdv.mpr hm)]
        simp [hm]
      · rw [if_neg (fun hc => hm (hdv.mp hc))]
        simp [hm]

theorem nat_div_facts (n k : Nat) (hn : 0 < n) (hk : 0 < k) :
    k * ((n + k - 1) / k) ≤ n + k - 1 ∧
      n + k - 1 < k * ((n + k - 1) / k) + k ∧ 1 ≤ (n + k - 1) / k := by
  have hdm := Nat.div_add_mod (n + k - 1) k
  have hmod : (n + k - 1) % k < k := Nat.mod_lt _ hk
  refine ⟨by omega, by omega, ?_⟩
  rw [Nat.one_le_div_iff hk]
  omega

/-- C5: for start < end and stride > 0, StepsRange::size equals the number of
indices i in [start, end) with (i - start) mod stride = 0, and also equals
the ceiling of (end - start) / stride. -/
theorem stepsRange_size_count (a b s : Int) (h1 : a < b) (h2 : 0 < s) :
    (StepsRange.mk a b s).size
        = ((stepInterval a b).countP fun i => (i - a) % s == 0)
    ∧ (StepsRange.mk a b s).size = ⌈(((b - a : Int) : ℚ) / ((s : Int) : ℚ))⌉ := by
  set n : Nat := (b - a).toNat with hn_def
  set k : Nat := s.toNat with hk_def
  have hn : (n : Int) = b - a := Int.toNat_of_nonneg (by omega)
  have hk : (k : Int) = s := Int.toNat_of_nonneg (by omega)
  have hn0 : 0 < n := by omega
  have hk0 : 0 < k := by omega
  -- the interval count is the count of multiples of k below n
  have hcount : ((stepInterval a b).countP fun i => (i - a) % s == 0)
      = (n + k - 1) / k := by
    have hfun : ((fun i => (i - a) % s == 0) ∘ fun j : Nat => a + (j : Int))
        = fun j : Nat => j % k == 0 := by
      funext j
      have e1 : a + (j : Int) - a = (j : Int) := by ring
      have e2 : (j : Int) % s = ((j % k : Nat) : Int) := by
        rw [← hk, Int.natCast_mod]
      simp only [Function.comp_apply, e1, e2]
      rw [Bool.eq_iff_iff]
      simp only [beq_iff_eq, Int.natCast_eq_zero]
    rw [stepInterval, List.countP_map, ← hn_def, hfun,
      countP_mod_eq_zero k hk0 n]
  -- the source's size expression in terms of n and k
  have hsize : (StepsRange.mk a b s).size = (((n + k - 1) / k : Nat) : Int) := by
    show (b - a - 1).tdiv s + 1 = (((n + k - 1) / k : Nat) : Int)
    have e3 : b - a - 1 = ((n - 1 : Nat) : Int) := by omega
    have e4 : (n + k - 1) / k = (n - 1) / k + 1 := by
      have e5 : n + k - 1 = (n - 1) + k := by omega
      rw [e5, Nat.add_div_right _ hk0]
    rw [e3, ← hk, ← Int.ofNat_tdiv, e4]
    push_cast
    ring
  obtain ⟨hf1, hf2, hf3⟩ := nat_div_facts n k hn0 hk0
  set M : Nat := (n + k - 1) / k with hM_def
  have hq2 : n ≤ k * M := by omega
  have hq1 : k * (M - 1) + 1 ≤ n := by
    have e6 : k * (M - 1) = k * M - k := Nat.mul_sub_one ..
    omega
  have hkQ : (0 : ℚ) < (k : ℚ) := by positivity
  have hbaQ : ((b - a : Int) : ℚ) = (n : ℚ) := by
    rw [← hn]; push_cast; ring
  have hsQ : ((s : Int) : ℚ) = (k : ℚ) := by
    rw [← hk]; push_cast; ring
  have hceil : ⌈((n : ℚ)) / ((k : ℚ))⌉ = ((M : Nat) : Int) := by
    rw [Int.ceil_eq_iff]
    have c1 : (k : ℚ) * ((M : ℚ) - 1) + 1 ≤ (n : ℚ) := by
      calc (k : ℚ) * ((M : ℚ) - 1) + 1
          = ((k * (M - 1) + 1 : Nat) : ℚ) := by
            push_cast [Nat.cast_sub hf3]
            ring
        _ ≤ (n : ℚ) := by exact_mod_cast hq1
    have c2 : (n : ℚ) ≤ (k : ℚ) * (M : ℚ) := by exact_mod_cast hq2
    constructor
    · rw [lt_div_iff₀ hkQ]
      push_cast
      nlinarith
    · rw [div_le_iff₀ hkQ]
      push_cast
      nlinarith
  constructor
  · rw [hsize, hcount]
  · rw [hsize, hbaQ, hsQ, hceil]

/-! ### List helpers -/

theorem mem_getD {α : Type} (l : List α) (n : Nat) (d : α)
    (h : n < l.length) : l.getD n d ∈ l := by
  rw [List.getD_eq_getElem l d h]
  exact List.getElem_mem h

theorem getD_set_self {α : Type} (l : List α) (n : Nat) (b d : α)
    (h : n < l.length) : (l.set n b).getD n d = b := by
  rw [List.getD_eq_getElem _ d (by simpa using h)]
  simp [List.getElem_set_self]

theorem getD_set_ne {α : Type} (l : List α) (n j : Nat) (b d : α)
    (hj : j ≠ n) : (l.set n b).getD j d = l.getD j d := by
  by_cases h : j < l.length
  · rw [List.getD_eq_getElem _ d (by simpa using h), List.getD_eq_getElem _ d h]
    exact List.getElem_set_ne (by omega) _
  · rw [List.getD_eq_default _ d (by simpa using h),
      List.getD_eq_default _ d (by omega)]

/-! ### pickExcluding -/

theorem pickExcluding_mem (L : List ℚ) (c : ℚ) (r : Nat) (hc : c ∈ L) :
    pickExcluding L c r ∈ L := by
  unfold pickExcluding
  rcases Nat.eq_zero_or_pos (L.filter fun v => v != c).length with h | h
  · rw [List.length_eq_zero] at h
    rw [h]
    simpa using hc
  · have hlt := Nat.mod_lt r h
    exact List.mem_of_mem_filter (mem_getD _ _ c hlt)

theorem pickExcluding_ne (L : List ℚ) (c : ℚ) (r : Nat)
    (hdist : ∃ u ∈ L, ∃ v ∈ L, u ≠ v) : pickExcluding L c r ≠ c := by
  unfold pickExcluding
  have hne : (L.filter fun v => v != c) ≠ [] := by
    obtain ⟨u, hu, v, hv, huv⟩ := hdist
    rcases eq_or_ne u c with rfl | hucne
    · exact List.ne_nil_of_mem
        (List.mem_filter.mpr ⟨hv, by simp [bne_iff_ne]; exact fun h => huv h.symm⟩)
    · exact List.ne_nil_of_mem
        (List.mem_filter.mpr ⟨hu, by simp [bne_iff_ne, hucne]⟩)
  have hlen : 0 < (L.filter fun v => v != c).length := List.length_pos.mpr hne
  have hmem := mem_getD _ (r % (L.filter fun v => v != c).length) c
    (Nat.mod_lt r hlen)
  have := (List.mem_filter.mp hmem).2
  simpa [bne_iff_ne] using this

/-! ### stageFrom -/

theorem stageFrom_fst_length (L : List ℚ) (sd vd : Nat → Nat)
    (rows : List (List ℚ)) : ∀ i : Nat,
    (stageFrom L sd vd rows i).1.length = rows.length := by
  induction rows with
  | nil => intro i; rfl
  | cons row rows ih =>
      intro i
      simp only [stageFrom, List.length_cons]
      rw [ih]

theorem stageFrom_snd_length (L : List ℚ) (sd vd : Nat → Nat)
    (rows : List (List ℚ)) : ∀ i : Nat,
    (stageFrom L sd vd rows i).2.length = rows.length := by
  induction rows with
  | nil => intro i; rfl
  | cons row rows ih =>
      intro i
      simp only [stageFrom, List.length_cons]
      rw [ih]

theorem stageFrom_staged (L : List ℚ) (sd vd : Nat → Nat)
    (hdist : ∃ u ∈ L, ∃ v ∈ L, u ≠ v) (rows : List (List ℚ)) :
    ∀ (i0 : Nat), (∀ row ∈ rows, 0 < row.length) →
    ∀ j, j < rows.length →
      (stageFrom L sd vd rows i0).1.getD j 0 < (rows.getD j []).length ∧
        (stageFrom L sd vd rows i0).2.getD j 0
          ≠ (rows.getD j []).getD ((stageFrom L sd vd rows i0).1.getD j 0) 0 := by
  induction rows with
  | nil =>
      intro i0 _ j hj
      exact absurd hj (by simp)
  | cons row rows ih =>
      intro i0 hrows j hj
      cases j with
      | zero =>
          have hrowlen : 0 < row.length := hrows row (by simp)
          constructor
          · simpa [stageFrom] using Nat.mod_lt (sd i0) hrowlen
          · simpa [stageFrom] using
              pickExcluding_ne L (row.getD (sd i0 % row.length) 0) (vd i0) hdist
      | succ m =>
          have hrec := ih (i0 + 1)
            (fun r hr => hrows r (List.mem_cons_of_mem _ hr)) m
            (by simpa using Nat.lt_of_succ_lt_succ hj)
          simpa [stageFrom] using hrec

theorem stageFrom_values_mem (L : List ℚ) (sd vd : Nat → Nat)
    (rows : List (List ℚ)) :
    ∀ (i0 : Nat), (∀ row ∈ rows, ∀ x ∈ row, x ∈ L) →
      (∀ row ∈ rows, 0 < row.length) →
      ∀ v ∈ (stageFrom L sd vd rows i0).2, v ∈ L := by
  induction rows with
  | nil => intro i0 _ _ v hv; exact absurd hv (by simp [stageFrom])
  | cons row rows ih =>
      intro i0 hmem hlen v hv
      simp only [stageFrom, List.mem_cons] at hv
      rcases hv with rfl | hv
      · have hrowlen : 0 < row.length := hlen row (by simp)
        have hcur : row.getD (sd i0 % row.length) 0 ∈ L :=
          hmem row (by simp) _ (mem_getD _ _ 0 (Nat.mod_lt (sd i0) hrowlen))
        exact pickExcluding_mem L _ (vd i0) hcur
      · exact ih (i0 + 1) (fun r hr => hmem r (List.mem_cons_of_mem _ hr))
          (fun r hr => hlen r (List.mem_cons_of_mem _ hr)) v hv

/-! ### commitRows / proposeRows / randomRows -/

theorem commitRows_all_false (rows : List (List ℚ)) :
    ∀ (ss : List Nat) (vs : List ℚ) (n : Nat),
      commitRows rows ss vs (List.replicate n false) = rows := by
  induction rows with
  | nil => intro ss vs n; cases ss <;> cases vs <;> cases n <;> rfl
  | cons row rows ih =>
      intro ss vs n
      cases ss with
      | nil => rfl
      | cons site ss =>
          cases vs with
          | nil => rfl
          | cons v vs =>
              cases n with
              | zero => rfl
              | succ m =>
                  simp only [List.replicate_succ, commitRows, if_neg
                    (by simp : ¬(false = true))]
                  rw [ih ss vs m]

theorem commitRows_all_true (rows : List (List ℚ)) :
    ∀ (ss : List Nat) (vs : List ℚ),
      commitRows rows ss vs (List.replicate rows.length true)
        = proposeRows rows ss vs := by
  induction rows with
  | nil => intro ss vs; cases ss <;> cases vs <;> rfl
  | cons row rows ih =>
      intro ss vs
      cases ss with
      | nil => rfl
      | cons site ss =>
          cases vs with
          | nil => rfl
          | cons v vs =>
              simp only [List.length_cons, List.replicate_succ, commitRows,
                proposeRows, if_pos rfl, if_true]
              rw [ih ss vs]

theorem proposeRows_getD (rows : List (List ℚ)) :
    ∀ (ss : List Nat) (vs : List ℚ), ss.length = rows.length →
      vs.length = rows.length → ∀ i, i < rows.length →
      (proposeRows rows ss vs).getD i []
        = (rows.getD i []).set (ss.getD i 0) (vs.getD i 0) := by
  induction rows with
  | nil => intro ss vs _ _ i hi; exact absurd hi (by simp)
  | cons row rows ih =>
      intro ss vs hss hvs i hi
      cases ss with
      | nil => exact absurd hss (by simp)
      | cons site ss =>
          cases vs with
          | nil => exact absurd hvs (by simp)
          | cons v vs =>
              cases i with
              | zero => rfl
              | succ m =>
                  simp only [proposeRows, List.getD_cons_succ]
                  exact ih ss vs (by simpa using hss) (by simpa using hvs) m
                    (by simpa using Nat.lt_of_succ_lt_succ hi)

theorem commitRows_length (rows : List (List ℚ)) :
    ∀ (ss : List Nat) (vs : List ℚ) (accs : List Bool),
      (commitRows rows ss vs accs).length = rows.length := by
  induction rows with
  | nil => intro ss vs accs; cases ss <;> cases vs <;> cases accs <;> rfl
  | cons row rows ih =>
      intro ss vs accs
      cases ss with
      | nil => rfl
      | cons site ss =>
          cases vs with
          | nil => rfl
          | cons v vs =>
              cases accs with
              | nil => rfl
              | cons acc accs =>
                  simp only [commitRows, List.length_cons]
                  rw [ih ss vs accs]

theorem commitRows_rows_nonempty (rows : List (List ℚ)) :
    ∀ (ss : List Nat) (vs : List ℚ) (accs : List Bool),
      (∀ row ∈ rows, 0 < row.length) →
      ∀ row' ∈ commitRows rows ss vs accs, 0 < row'.length := by
  induction rows with
  | nil =>
      intro ss vs accs _ row' hrow'
      cases ss <;> cases vs <;> cases accs <;> simp [commitRows] at hrow'
  | cons row rows ih =>
      intro ss vs accs hlen row' hrow'
      cases ss with
      | nil => exact hlen row' hrow'
      | cons site ss =>
          cases vs with
          | nil => exact hlen row' hrow'
          | cons v vs =>
              cases accs with
              | nil => exact hlen row' hrow'
              | cons acc accs =>
                  simp only [commitRows, List.mem_cons] at hrow'
                  rcases hrow' with rfl | hrow'
                  · cases acc with
                    | true =>
                        simpa using hlen row (by simp)
                    | false =>
                        simpa using hlen row (by simp)
                  · exact ih ss vs accs
                      (fun r hr => hlen r (List.mem_cons_of_mem _ hr)) row' hrow'

theorem commitRows_state_valid (L : List ℚ) (rows : List (List ℚ)) :
    ∀ (ss : List Nat) (vs : List ℚ) (accs : List Bool),
      (∀ row ∈ rows, ∀ x ∈ row, x ∈ L) → (∀ v ∈ vs, v ∈ L) →
      ∀ row' ∈ commitRows rows ss vs accs, ∀ x ∈ row', x ∈ L := by
  induction rows with
  | nil =>
      intro ss vs accs hmem _ row' hrow'
      cases ss <;> cases vs <;> cases accs <;> simp [commitRows] at hrow'
  | cons row rows ih =>
      intro ss vs accs hmem hvs row' hrow'
      cases ss with
      | nil => exact hmem row' hrow'
      | cons site ss =>
          cases vs with
          | nil => exact hmem row' hrow'
          | cons v vs =>
              cases accs with
              | nil => exact hmem row' hrow'
              | cons acc accs =>
                  simp only [commitRows, List.mem_cons] at hrow'
                  rcases hrow' with rfl | hrow'
                  · intro x hx
                    cases acc with
                    | true =>
                        simp only [if_pos rfl] at hx
                        rcases List.mem_or_eq_of_mem_set hx with hx | rfl
                        · exact hmem row (by simp) x hx
                        · exact hvs x (by simp)
                    | false =>
                        simp only [Bool.false_eq_true, if_neg
                          (by simp : ¬(false = true))] at hx
                        exact hmem row (by simp) x hx
                  · exact ih ss vs accs
                      (fun r hr => hmem r (List.mem_cons_of_mem _ hr))
                      (fun w hw => hvs w (List.mem_cons_of_mem _ hw)) row' hrow'

theorem commitRows_true_getD (rows : List (List ℚ)) :
    ∀ (ss : List Nat) (vs : List ℚ), ss.length = rows.length →
      vs.length = rows.length → ∀ i, i < rows.length →
      (commitRows rows ss vs (List.replicate rows.length true)).getD i []
        = (rows.getD i []).set (ss.getD i 0) (vs.getD i 0) := by
  intro ss vs hss hvs i hi
  rw [commitRows_all_true]
  exact proposeRows_getD rows ss vs hss hvs i hi

theorem randomRow_length (L : List ℚ) (dj : Nat → Nat) (row : List ℚ) :
    ∀ j : Nat, (randomRow L dj row j).length = row.length := by
  induction row with
  | nil => intro j; rfl
  | cons a rest ih =>
      intro j
      simp only [randomRow, List.length_cons]
      rw [ih]

theorem randomRow_mem (L : List ℚ) (hL : L ≠ []) (dj : Nat → Nat)
    (row : List ℚ) : ∀ (j : Nat), ∀ x ∈ randomRow L dj row j, x ∈ L := by
  induction row with
  | nil => intro j x hx; exact absurd hx (by simp [randomRow])
  | cons a rest ih =>
      intro j x hx
      simp only [randomRow, List.mem_cons] at hx
      rcases hx with rfl | hx
      · exact mem_getD L _ 0 (Nat.mod_lt _ (List.length_pos.mpr hL))
      · exact ih (j + 1) x hx

theorem randomRows_length (L : List ℚ) (d : Nat → Nat → Nat)
    (rows : List (List ℚ)) : ∀ i : Nat,
    (randomRows L d rows i).length = rows.length := by
  induction rows with
  | nil => intro i; rfl
  | cons row rows ih =>
      intro i
      simp only [randomRows, List.length_cons]
      rw [ih]

theorem randomRows_rows_nonempty (L : List ℚ) (d : Nat → Nat → Nat)
    (rows : List (List ℚ)) : ∀ (i : Nat),
    (∀ row ∈ rows, 0 < row.length) →
    ∀ row' ∈ randomRows L d rows i, 0 < row'.length := by
  induction rows with
  | nil => intro i _ row' hrow'; exact absurd hrow' (by simp [randomRows])
  | cons row rows ih =>
      intro i hlen row' hrow'
      simp only [randomRows, List.mem_cons] at hrow'
      rcases hrow' with rfl | hrow'
      · rw [randomRow_length]
        exact hlen row (by simp)
      · exact ih (i + 1) (fun r hr => hlen r (List.mem_cons_of_mem _ hr))
          row' hrow'

theorem randomRows_state_valid (L : List ℚ) (hL : L ≠ [])
    (d : Nat → Nat → Nat) (rows : List (List ℚ)) : ∀ (i : Nat),
    ∀ row' ∈ randomRows L d rows i, ∀ x ∈ row', x ∈ L := by
  induction rows with
  | nil => intro i row' hrow'; exact absurd hrow' (by simp [randomRows])
  | cons row rows ih =>
      intro i row' hrow'
      simp only [randomRows, List.mem_cons] at hrow'
      rcases hrow' with rfl | hrow'
      · exact randomRow_mem L hL (d i) row 0
      · exact ih (i + 1) row' hrow'

/-! ### Flipper invariants -/

theorem stage_state (f : Flipper) (sd vd : Nat → Nat) :
    (f.stage sd vd).state = f.state := rfl

theorem stage_localStates (f : Flipper) (sd vd : Nat → Nat) :
    (f.stage sd vd).localStates = f.localStates := rfl

theorem stage_staged (f : Flipper) (sd vd : Nat → Nat)
    (hdist : ∃ u ∈ f.localStates, ∃ v ∈ f.localStates, u ≠ v)
    (hrows : f.RowsNonempty) : (f.stage sd vd).Staged := by
  intro i hi
  have hi' : i < f.state.length := hi
  exact stageFrom_staged f.localStates sd vd hdist f.state 0 hrows i hi'

/-- The conjunction of invariants preserved by every reachable transition. -/
theorem reachable_core_invariant (f0 : Flipper)
    (hL : f0.localStates ≠ []) (hrows0 : f0.RowsNonempty) :
    ∀ f, Flipper.Reachable f0 f →
      f.localStates = f0.localStates ∧ f.StateValid ∧ f.ValuesValid ∧
        f.RowsNonempty := by
  intro f hreach
  induction hreach with
  | reset0 d sd vd =>
      refine ⟨rfl, ?_, ?_, ?_⟩
      · exact randomRows_state_valid f0.localStates hL d f0.state 0
      · exact stageFrom_values_mem f0.localStates sd vd _ 0
          (randomRows_state_valid f0.localStates hL d f0.state 0)
          (randomRows_rows_nonempty f0.localStates d f0.state 0 hrows0)
      · exact randomRows_rows_nonempty f0.localStates d f0.state 0 hrows0
  | reset f d sd vd hr ih =>
      obtain ⟨hls, _, _, hrne⟩ := ih
      have hLf : f.localStates ≠ [] := by rw [hls]; exact hL
      refine ⟨hls, ?_, ?_, ?_⟩
      · exact randomRows_state_valid f.localStates hLf d f.state 0
      · exact stageFrom_values_mem f.localStates sd vd _ 0
          (randomRows_state_valid f.localStates hLf d f.state 0)
          (randomRows_rows_nonempty f.localStates d f.state 0 hrne)
      · exact randomRows_rows_nonempty f.localStates d f.state 0 hrne
  | next f accept sd vd hr ih =>
      obtain ⟨hls, hsv, hvv, hrne⟩ := ih
      refine ⟨hls, ?_, ?_, ?_⟩
      · exact commitRows_state_valid f.localStates f.state f.sites f.values
          accept hsv hvv
      · exact stageFrom_values_mem f.localStates sd vd _ 0
          (commitRows_state_valid f.localStates f.state f.sites f.values
            accept hsv hvv)
          (commitRows_rows_nonempty f.state f.sites f.values accept hrne)
      · exact commitRows_rows_nonempty f.state f.sites f.values accept hrne

/-- In every reachable state the staged suggestion is a valid non-self
transition. -/
theorem reachable_staged (f0 : Flipper)
    (hdist : ∃ u ∈ f0.localStates, ∃ v ∈ f0.localStates, u ≠ v)
    (hrows0 : f0.RowsNonempty) :
    ∀ f, Flipper.Reachable f0 f → f.Staged := by
  intro f hreach
  have hL : f0.localStates ≠ [] := by
    obtain ⟨u, hu, _⟩ := hdist
    exact List.ne_nil_of_mem hu
  cases hreach with
  | reset0 d sd vd =>
      exact stage_staged _ sd vd hdist
        (randomRows_rows_nonempty f0.localStates d f0.state 0 hrows0)
  | reset f d sd vd hr =>
      obtain ⟨hls, _, _, hrne⟩ := reachable_core_invariant f0 hL hrows0 f hr
      exact stage_staged _ sd vd (hls ▸ hdist)
        (randomRows_rows_nonempty f.localStates d f.state 0 hrne)
  | next f accept sd vd hr =>
      obtain ⟨hls, _, _, hrne⟩ := reachable_core_invariant f0 hL hrows0 f hr
      exact stage_staged _ sd vd (hls ▸ hdist)
        (commitRows_rows_nonempty f.state f.sites f.values accept hrne)

/-- C2: advancing with an all-false accept mask leaves every chain row of the
state matrix unchanged; advancing with an all-true mask makes each chain row
equal to its staged proposed configuration, which differs from the prior row
exactly at the staged site. -/
theorem flipper_advance_mask (f : Flipper) (sd vd : Nat → Nat)
    (hStaged : f.Staged) (hs : f.sites.length = f.BatchSize)
    (hv : f.values.length = f.BatchSize) :
    (f.Next (List.replicate f.BatchSize false) sd vd).state = f.state
    ∧ (f.Next (List.replicate f.BatchSize true) sd vd).state
        = proposeRows f.state f.sites f.values
    ∧ ∀ i, i < f.BatchSize →
        ((f.Next (List.replicate f.BatchSize true) sd vd).state.getD i []).getD
            (f.sites.getD i 0) 0 = f.values.getD i 0
        ∧ ((f.Next (List.replicate f.BatchSize true) sd vd).state.getD i []).getD
            (f.sites.getD i 0) 0 ≠ (f.state.getD i []).getD (f.sites.getD i 0) 0
        ∧ ∀ j, j < (f.state.getD i []).length → j ≠ f.sites.getD i 0 →
            ((f.Next (List.replicate f.BatchSize true) sd vd).state.getD i
              []).getD j 0 = (f.state.getD i []).getD j 0 := by
  have hfalse : (f.Next (List.replicate f.BatchSize false) sd vd).state
      = f.state := by
    show commitRows f.state f.sites f.values (List.replicate f.BatchSize false)
      = f.state
    exact commitRows_all_false f.state f.sites f.values f.BatchSize
  have htrue : (f.Next (List.replicate f.BatchSize true) sd vd).state
      = proposeRows f.state f.sites f.values := by
    show commitRows f.state f.sites f.values (List.replicate f.BatchSize true)
      = proposeRows f.state f.sites f.values
    exact commitRows_all_true f.state f.sites f.values
  refine ⟨hfalse, htrue, fun i hi => ?_⟩
  obtain ⟨hsite, hval⟩ := hStaged i hi
  have hrow : (f.Next (List.replicate f.BatchSize true) sd vd).state.getD i []
      = (f.state.getD i []).set (f.sites.getD i 0) (f.values.getD i 0) := by
    rw [htrue]
    exact proposeRows_getD f.state f.sites f.values hs hv i hi
  refine ⟨?_, ?_, ?_⟩
  · rw [hrow]
    exact getD_set_self _ _ _ _ hsite
  · rw [hrow, getD_set_self _ _ _ _ hsite]
    exact hval
  · intro j hj hji
    rw [hrow, getD_set_ne _ _ _ _ _ hji]

/-- C2 witness: a 1-chain, 2-site flipper over local states {1, -1} with the
suggestion (site 0, value -1) staged on the current row [1, 1]. -/
theorem flipper_advance_mask_witness :
    ((⟨[1, -1], [[1, 1]], [0], [-1]⟩ : Flipper).Next
        (List.replicate (⟨[1, -1], [[1, 1]], [0], [-1]⟩ : Flipper).BatchSize
          false) (fun _ => 0) (fun _ => 0)).state
      = (⟨[1, -1], [[1, 1]], [0], [-1]⟩ : Flipper).state
    ∧ ((⟨[1, -1], [[1, 1]], [0], [-1]⟩ : Flipper).Next
        (List.replicate (⟨[1, -1], [[1, 1]], [0], [-1]⟩ : Flipper).BatchSize
          true) (fun _ => 0) (fun _ => 0)).state
        = proposeRows (⟨[1, -1], [[1, 1]], [0], [-1]⟩ : Flipper).state
            (⟨[1, -1], [[1, 1]], [0], [-1]⟩ : Flipper).sites
            (⟨[1, -1], [[1, 1]], [0], [-1]⟩ : Flipper).values
    ∧ ∀ i, i < (⟨[1, -1], [[1, 1]], [0], [-1]⟩ : Flipper).BatchSize →
        (((⟨[1, -1], [[1, 1]], [0], [-1]⟩ : Flipper).Next
            (List.replicate (⟨[1, -1], [[1, 1]], [0], [-1]⟩ :
              Flipper).BatchSize true) (fun _ => 0) (fun _ => 0)).state.getD i
              []).getD ((⟨[1, -1], [[1, 1]], [0], [-1]⟩ : Flipper).sites.getD
                i 0) 0
          = (⟨[1, -1], [[1, 1]], [0], [-1]⟩ : Flipper).values.getD i 0
        ∧ (((⟨[1, -1], [[1, 1]], [0], [-1]⟩ : Flipper).Next
            (List.replicate (⟨[1, -1], [[1, 1]], [0], [-1]⟩ :
              Flipper).BatchSize true) (fun _ => 0) (fun _ => 0)).state.getD i
              []).getD ((⟨[1, -1], [[1, 1]], [0], [-1]⟩ : Flipper).sites.getD
                i 0) 0
            ≠ ((⟨[1, -1], [[1, 1]], [0], [-1]⟩ : Flipper).state.getD i
              []).getD ((⟨[1, -1], [[1, 1]], [0], [-1]⟩ : Flipper).sites.getD
                i 0) 0
        ∧ ∀ j, j < ((⟨[1, -1], [[1, 1]], [0], [-1]⟩ :
              Flipper).state.getD i []).length →
            j ≠ (⟨[1, -1], [[1, 1]], [0], [-1]⟩ : Flipper).sites.getD i 0 →
            (((⟨[1, -1], [[1, 1]], [0], [-1]⟩ : Flipper).Next
              (List.replicate (⟨[1, -1], [[1, 1]], [0], [-1]⟩ :
                Flipper).BatchSize true) (fun _ => 0) (fun _ => 0)).state.getD
                i []).getD j 0
              = ((⟨[1, -1], [[1, 1]], [0], [-1]⟩ : Flipper).state.getD i
                []).getD j 0 :=
  flipper_advance_mask ⟨[1, -1], [[1, 1]], [0], [-1]⟩ (fun _ => 0)
    (fun _ => 0) (by unfold Flipper.Staged Flipper.BatchSize; decide)
    (by decide) (by decide)

/-- C3: in every reachable state, for every chain, the staged candidate value
is never equal to the chain's current value at the staged site, for any
sequence of random draws. -/
theorem flipper_no_self_transition (f0 f : Flipper)
    (hdist : ∃ u ∈ f0.localStates, ∃ v ∈ f0.localStates, u ≠ v)
    (hrows0 : f0.RowsNonempty) (hreach : Flipper.Reachable f0 f) :
    ∀ i, i < f.BatchSize →
      f.values.getD i 0 ≠ (f.state.getD i []).getD (f.sites.getD i 0) 0 :=
  fun i hi => (reachable_staged f0 hdist hrows0 f hreach i hi).2

/-- C3 witness: chain 0 after one Reset step of a 1-chain, 1-site flipper
over {1, -1}. -/
theorem flipper_no_self_transition_witness :
    ((⟨[1, -1], [[1]], [0], [-1]⟩ : Flipper).Reset (fun _ _ => 0)
        (fun _ => 0) (fun _ => 0)).values.getD 0 0
      ≠ (((⟨[1, -1], [[1]], [0], [-1]⟩ : Flipper).Reset (fun _ _ => 0)
          (fun _ => 0) (fun _ => 0)).state.getD 0 []).getD
          (((⟨[1, -1], [[1]], [0], [-1]⟩ : Flipper).Reset (fun _ _ => 0)
            (fun _ => 0) (fun _ => 0)).sites.getD 0 0) 0 :=
  flipper_no_self_transition ⟨[1, -1], [[1]], [0], [-1]⟩ _
    ⟨1, by decide, -1, by decide, by decide⟩
    (by unfold Flipper.RowsNonempty; decide)
    (Flipper.Reachable.reset0 (fun _ _ => 0) (fun _ => 0) (fun _ => 0))
    0 (by decide)

/-- C4: after Reset, and after every subsequent step, every entry of every
chain row of the batch state matrix is a member of the local-state set. -/
theorem flipper_membership_invariant (f0 f : Flipper)
    (hL : f0.localStates ≠ []) (hrows0 : f0.RowsNonempty)
    (hreach : Flipper.Reachable f0 f) :
    ∀ row ∈ f.state, ∀ x ∈ row, x ∈ f.localStates :=
  (reachable_core_invariant f0 hL hrows0 f hreach).2.1

/-- C4 witness: the first entry of the first chain row, after one Reset and
one Next step of a 1-chain, 2-site flipper over local states {2, 3}, is a
member of the local-state set. -/
theorem flipper_membership_invariant_witness :
    (((((⟨[2, 3], [[2, 2]], [0], [3]⟩ : Flipper).Reset (fun _ _ => 0)
        (fun _ => 0) (fun _ => 0)).Next [true] (fun _ => 1)
        (fun _ => 0)).state.getD 0 []).getD 0 0)
      ∈ (((⟨[2, 3], [[2, 2]], [0], [3]⟩ : Flipper).Reset (fun _ _ => 0)
        (fun _ => 0) (fun _ => 0)).Next [true] (fun _ => 1)
        (fun _ => 0)).localStates :=
  flipper_membership_invariant ⟨[2, 3], [[2, 2]], [0], [3]⟩ _
    (by decide) (by unfold Flipper.RowsNonempty; decide)
    (Flipper.Reachable.next _ [true] (fun _ => 1) (fun _ => 0)
      (Flipper.Reachable.reset0 (fun _ _ => 0) (fun _ => 0) (fun _ => 0)))
    ((((⟨[2, 3], [[2, 2]], [0], [3]⟩ : Flipper).Reset (fun _ _ => 0)
        (fun _ => 0) (fun _ => 0)).Next [true] (fun _ => 1)
        (fun _ => 0)).state.getD 0 []) (by decide)
    (((((⟨[2, 3], [[2, 2]], [0], [3]⟩ : Flipper).Reset (fun _ _ => 0)
        (fun _ => 0) (fun _ => 0)).Next [true] (fun _ => 1)
        (fun _ => 0)).state.getD 0 []).getD 0 0) (by decide)

/-! ### MetropolisLocalV2 lemmas -/

theorem getD_map {α β : Type} (f : α → β) (l : List α) (i : Nat) (d : α)
    (d' : β) (h : i < l.length) : (l.map f).getD i d' = f (l.getD i d) := by
  rw [List.getD_eq_getElem _ _ (by simpa using h), List.getD_eq_getElem _ _ h]
  simp

theorem getD_range_map {β : Type} (g : Nat → β) (B i : Nat) (d : β)
    (h : i < B) : ((List.range B).map g).getD i d = g i := by
  rw [List.getD_eq_getElem _ _ (by simpa using h)]
  simp

theorem proposeRows_length (rows : List (List ℚ)) :
    ∀ (ss : List Nat) (vs : List ℚ),
      (proposeRows rows ss vs).length = rows.length := by
  induction rows with
  | nil => intro ss vs; cases ss <;> cases vs <;> rfl
  | cons row rows ih =>
      intro ss vs
      cases ss with
      | nil => rfl
      | cons site ss =>
          cases vs with
          | nil => rfl
          | cons v vs =>
              simp only [proposeRows, List.length_cons]
              rw [ih ss vs]

theorem commitRows_headD_length (rows : List (List ℚ)) (ss : List Nat)
    (vs : List ℚ) (accs : List Bool) :
    ((commitRows rows ss vs accs).headD []).length
      = (rows.headD []).length := by
  cases rows with
  | nil => cases ss <;> cases vs <;> cases accs <;> rfl
  | cons row rows =>
      cases ss with
      | nil => rfl
      | cons site ss =>
          cases vs with
          | nil => rfl
          | cons v vs =>
              cases accs with
              | nil => rfl
              | cons acc accs => cases acc <;> simp [commitRows]

theorem randomRows_headD_length (L : List ℚ) (d : Nat → Nat → Nat)
    (rows : List (List ℚ)) (i : Nat) :
    ((randomRows L d rows i).headD []).length = (rows.headD []).length := by
  cases rows with
  | nil => rfl
  | cons row rows => simp [randomRows, randomRow_length]

theorem flipper_reset_batchSize (f : Flipper) (d : Nat → Nat → Nat)
    (sd vd : Nat → Nat) : (f.Reset d sd vd).BatchSize = f.BatchSize :=
  randomRows_length f.localStates d f.state 0

theorem flipper_reset_systemSize (f : Flipper) (d : Nat → Nat → Nat)
    (sd vd : Nat → Nat) : (f.Reset d sd vd).SystemSize = f.SystemSize :=
  randomRows_headD_length f.localStates d f.state 0

theorem flipper_next_batchSize (f : Flipper) (accept : List Bool)
    (sd vd : Nat → Nat) : (f.Next accept sd vd).BatchSize = f.BatchSize :=
  commitRows_length f.state f.sites f.values accept

theorem flipper_next_systemSize (f : Flipper) (accept : List Bool)
    (sd vd : Nat → Nat) : (f.Next accept sd vd).SystemSize = f.SystemSize :=
  commitRows_headD_length f.state f.sites f.values accept

/-- C1: in every Next step, chain i is accepted iff its fresh uniform draw
is below min(1, |exp(proposedLogAmp - currentLogAmp)|^2), and afterwards the
amplitude vector holds the proposed log-amplitude for accepted chains and
the prior one for rejected chains. -/
theorem metropolis_next_spec (m : MetropolisLocalV2) (logPsi : List ℚ → ℂ)
    (randoms : List ℝ) (sd vd : Nat → Nat)
    (hs : m.flipper.sites.length = m.BatchSize)
    (hv : m.flipper.values.length = m.BatchSize)
    (i : Nat) (hi : i < m.BatchSize) :
    ((m.Next logPsi randoms sd vd).accept.getD i false = true
        ↔ randoms.getD i 0 < min 1 (Complex.abs (Complex.exp
            (logPsi (m.proposedRow i) - m.currentY.getD i 0)) ^ 2))
    ∧ (m.Next logPsi randoms sd vd).currentY.getD i 0
        = if randoms.getD i 0 < min 1 (Complex.abs (Complex.exp
              (logPsi (m.proposedRow i) - m.currentY.getD i 0)) ^ 2)
          then logPsi (m.proposedRow i) else m.currentY.getD i 0 := by
  have hpY : (m.proposedY logPsi).getD i 0 = logPsi (m.proposedRow i) := by
    rw [MetropolisLocalV2.proposedY,
      getD_map logPsi _ i [] 0
        (by rw [proposeRows_length]; exact hi)]
    congr 1
    exact proposeRows_getD m.flipper.state m.flipper.sites m.flipper.values
      hs hv i hi
  have hacc : (m.Next logPsi randoms sd vd).accept.getD i false
      = decide (randoms.getD i 0 < acceptProb (m.currentY.getD i 0)
          (logPsi (m.proposedRow i))) := by
    show (metroAccept m logPsi randoms).getD i false = _
    rw [metroAccept, getD_range_map _ _ i false hi, hpY]
  constructor
  · rw [hacc, decide_eq_true_eq, acceptProb]
  · show ((List.range m.BatchSize).map fun j =>
        if (metroAccept m logPsi randoms).getD j false
        then (m.proposedY logPsi).getD j 0
        else m.currentY.getD j 0).getD i 0 = _
    rw [getD_range_map _ _ i 0 hi]
    have hacc2 : (metroAccept m logPsi randoms).getD i false
        = decide (randoms.getD i 0 < acceptProb (m.currentY.getD i 0)
            (logPsi (m.proposedRow i))) := hacc
    rw [hacc2, hpY]
    by_cases hp : randoms.getD i 0 < min 1 (Complex.abs (Complex.exp
        (logPsi (m.proposedRow i) - m.currentY.getD i 0)) ^ 2)
    · rw [if_pos (decide_eq_true_eq.mpr (by rw [acceptProb]; exact hp)),
        if_pos hp]
    · rw [if_neg (by rw [decide_eq_true_eq, acceptProb]; exact hp),
        if_neg hp]

/-- C1 witness: one chain, one site, constant model (log-amplitude 0) and a
uniform draw of 1/2: the acceptance probability is min(1, |exp 0|^2) = 1, so
the chain is accepted and keeps the proposed amplitude. -/
theorem metropolis_next_spec_witness :
    (((⟨⟨[1, -1], [[1]], [0], [-1]⟩, [0], [false]⟩ :
        MetropolisLocalV2).Next (fun _ => 0) [(1 : ℝ) / 2] (fun _ => 0)
        (fun _ => 0)).accept.getD 0 false = true
      ↔ ((1 : ℝ) / 2 : ℝ) < min 1 (Complex.abs (Complex.exp
          ((fun _ => (0 : ℂ))
            ((⟨⟨[1, -1], [[1]], [0], [-1]⟩, [0], [false]⟩ :
              MetropolisLocalV2).proposedRow 0)
            - (⟨⟨[1, -1], [[1]], [0], [-1]⟩, [0], [false]⟩ :
              MetropolisLocalV2).currentY.getD 0 0)) ^ 2))
    ∧ ((⟨⟨[1, -1], [[1]], [0], [-1]⟩, [0], [false]⟩ :
        MetropolisLocalV2).Next (fun _ => 0) [(1 : ℝ) / 2] (fun _ => 0)
        (fun _ => 0)).currentY.getD 0 0
      = if ((1 : ℝ) / 2 : ℝ) < min 1 (Complex.abs (Complex.exp
            ((fun _ => (0 : ℂ))
              ((⟨⟨[1, -1], [[1]], [0], [-1]⟩, [0], [false]⟩ :
                MetropolisLocalV2).proposedRow 0)
              - (⟨⟨[1, -1], [[1]], [0], [-1]⟩, [0], [false]⟩ :
                MetropolisLocalV2).currentY.getD 0 0)) ^ 2)
        then (fun _ => (0 : ℂ))
          ((⟨⟨[1, -1], [[1]], [0], [-1]⟩, [0], [false]⟩ :
            MetropolisLocalV2).proposedRow 0)
        else (⟨⟨[1, -1], [[1]], [0], [-1]⟩, [0], [false]⟩ :
          MetropolisLocalV2).currentY.getD 0 0 :=
  metropolis_next_spec ⟨⟨[1, -1], [[1]], [0], [-1]⟩, [0], [false]⟩
    (fun _ => 0) [(1 : ℝ) / 2] (fun _ => 0) (fun _ => 0) rfl rfl 0
    (by decide)

/-- C10: BatchSize and SystemSize, and the lengths of the amplitude vector
and the acceptance mask, are unchanged by every finite sequence of Reset and
Next calls. -/
theorem metropolis_shape_invariant (logPsi : List ℚ → ℂ)
    (m0 m : MetropolisLocalV2)
    (hY0 : m0.currentY.length = m0.BatchSize)
    (hA0 : m0.accept.length = m0.BatchSize)
    (hreach : MetropolisLocalV2.Reaches logPsi m0 m) :
    m.BatchSize = m0.BatchSize ∧ m.SystemSize = m0.SystemSize
    ∧ m.currentY.length = m0.BatchSize
    ∧ m.accept.length = m0.BatchSize := by
  induction hreach with
  | refl => exact ⟨rfl, rfl, hY0, hA0⟩
  | reset m d sd vd hr ih =>
      obtain ⟨hB, hS, hY, hA⟩ := ih
      refine ⟨?_, ?_, ?_, ?_⟩
      · show (m.flipper.Reset d sd vd).BatchSize = _
        rw [flipper_reset_batchSize]
        exact hB
      · show (m.flipper.Reset d sd vd).SystemSize = _
        rw [flipper_reset_systemSize]
        exact hS
      · show ((m.flipper.Reset d sd vd).state.map logPsi).length = _
        rw [List.length_map]
        have : (m.flipper.Reset d sd vd).state.length
            = (m.flipper.Reset d sd vd).BatchSize := rfl
        rw [this, flipper_reset_batchSize]
        exact hB
      · exact hA
  | next m randoms sd vd hr ih =>
      obtain ⟨hB, hS, hY, hA⟩ := ih
      refine ⟨?_, ?_, ?_, ?_⟩
      · show (m.flipper.Next (metroAccept m logPsi randoms) sd vd).BatchSize
          = _
        rw [flipper_next_batchSize]
        exact hB
      · show (m.flipper.Next (metroAccept m logPsi randoms) sd vd).SystemSize
          = _
        rw [flipper_next_systemSize]
        exact hS
      · show ((List.range m.BatchSize).map _).length = _
        rw [List.length_map, List.length_range]
        exact hB
      · show (metroAccept m logPsi randoms).length = _
        rw [metroAccept, List.length_map, List.length_range]
        exact hB

/-- C10 witness: a 1-chain, 1-site driver after one Next step keeps batch
size 1, system size 1, and length-1 amplitude and acceptance vectors. -/
theorem metropolis_shape_invariant_witness :
    ((⟨⟨[1, -1], [[1]], [0], [-1]⟩, [0], [true]⟩ :
        MetropolisLocalV2).Next (fun _ => 0) [(1 : ℝ) / 2] (fun _ => 0)
        (fun _ => 0)).BatchSize
      = (⟨⟨[1, -1], [[1]], [0], [-1]⟩, [0], [true]⟩ :
        MetropolisLocalV2).BatchSize
    ∧ ((⟨⟨[1, -1], [[1]], [0], [-1]⟩, [0], [true]⟩ :
        MetropolisLocalV2).Next (fun _ => 0) [(1 : ℝ) / 2] (fun _ => 0)
        (fun _ => 0)).SystemSize
      = (⟨⟨[1, -1], [[1]], [0], [-1]⟩, [0], [true]⟩ :
        MetropolisLocalV2).SystemSize
    ∧ ((⟨⟨[1, -1], [[1]], [0], [-1]⟩, [0], [true]⟩ :
        MetropolisLocalV2).Next (fun _ => 0) [(1 : ℝ) / 2] (fun _ => 0)
        (fun _ => 0)).currentY.length
      = (⟨⟨[1, -1], [[1]], [0], [-1]⟩, [0], [true]⟩ :
        MetropolisLocalV2).BatchSize
    ∧ ((⟨⟨[1, -1], [[1]], [0], [-1]⟩, [0], [true]⟩ :
        MetropolisLocalV2).Next (fun _ => 0) [(1 : ℝ) / 2] (fun _ => 0)
        (fun _ => 0)).accept.length
      = (⟨⟨[1, -1], [[1]], [0], [-1]⟩, [0], [true]⟩ :
        MetropolisLocalV2).BatchSize :=
  metropolis_shape_invariant (fun _ => 0)
    ⟨⟨[1, -1], [[1]], [0], [-1]⟩, [0], [true]⟩ _ rfl rfl
    (MetropolisLocalV2.Reaches.next _ [(1 : ℝ) / 2] (fun _ => 0)
      (fun _ => 0) MetropolisLocalV2.Reaches.refl)

/-! ### SampleCollector lemmas -/

theorem collectLoop_range' {St : Type} (next : Nat → St → St)
    (readC : St → List (List ℚ)) (readA : St → List ℂ)
    (readG : St → List (List ℂ)) (r : StepsRange) (w : Bool) (s0 : St) :
    ∀ (n j : Nat) (s : St), s = iterateNext next s0 j →
      collectLoop next readC readA readG r w (List.range' j n) s
        = (((((List.range' j n).filter (recordedAt r)).map fun i =>
              readC (iterateNext next s0 i)).flatten,
            (((List.range' j n).filter (recordedAt r)).map fun i =>
              readA (iterateNext next s0 i)).flatten,
            if w then
              (((List.range' j n).filter (recordedAt r)).map fun i =>
                readG (iterateNext next s0 i)).flatten
            else []),
           iterateNext next s0 (j + n)) := by
  intro n
  induction n with
  | zero =>
      intro j s hs
      subst hs
      cases w <;> simp [collectLoop]
  | succ m ih =>
      intro j s hs
      rw [List.range'_succ j m 1]
      have hnext : next j s = iterateNext next s0 (j + 1) := by
        rw [hs]; rfl
      have htail := ih (j + 1) (next j s) hnext
      simp only [collectLoop, htail]
      rw [List.filter_cons]
      have hadd : j + 1 + m = j + (m + 1) := by omega
      rw [hadd, hs]
      by_cases hrec : recordedAt r j
      · cases w <;> simp [hrec]
      · cases w <;> simp [hrec]

/-- The closed form of ComputeSamples: the three outputs are the scheduled
whole-batch reads in step order, and the final state is the result of `end`
next() calls. -/
theorem computeSamples_closed {St : Type} (next : Nat → St → St)
    (readC : St → List (List ℚ)) (readA : St → List ℂ)
    (readG : St → List (List ℂ)) (r : StepsRange) (w : Bool) (s0 : St) :
    ComputeSamples next readC readA readG r w s0
      = (((scheduledSteps r r.end_.toNat).map fun i =>
            readC (iterateNext next s0 i)).flatten,
         ((scheduledSteps r r.end_.toNat).map fun i =>
            readA (iterateNext next s0 i)).flatten,
         (if w then
            some (((scheduledSteps r r.end_.toNat).map fun i =>
              readG (iterateNext next s0 i)).flatten)
          else none),
         iterateNext next s0 r.end_.toNat) := by
  have h := collectLoop_range' next readC readA readG r w s0 r.end_.toNat 0
    s0 rfl
  simp only [ComputeSamples, scheduledSteps, List.range_eq_range' _, h]
  cases w <;> simp

/-- C7: ComputeSamples with schedule (0, N, 1) and gradients disabled
returns exactly N*B configuration rows, N*B amplitudes and no gradient
output; in general it performs exactly `end` next() calls and records the
whole batch at precisely the scheduled step indices, in step-major,
chain-minor order. -/
theorem computeSamples_spec {St : Type} (next : Nat → St → St)
    (readC : St → List (List ℚ)) (readA : St → List ℂ)
    (readG : St → List (List ℂ)) (s0 : St) (B : Nat)
    (hC : ∀ s, (readC s).length = B) (hA : ∀ s, (readA s).length = B)
    (N : Int) (hN : 0 < N) :
    (ComputeSamples next readC readA readG ⟨0, N, 1⟩ false s0).1.length
        = N.toNat * B
    ∧ (ComputeSamples next readC readA readG ⟨0, N, 1⟩ false
        s0).2.1.length = N.toNat * B
    ∧ (ComputeSamples next readC readA readG ⟨0, N, 1⟩ false s0).2.2.1
        = none
    ∧ ∀ (r : StepsRange) (wg : Bool),
        (ComputeSamples next readC readA readG r wg s0).1
          = ((scheduledSteps r r.end_.toNat).map fun i =>
              readC (iterateNext next s0 i)).flatten
        ∧ (ComputeSamples next readC readA readG r wg s0).2.1
          = ((scheduledSteps r r.end_.toNat).map fun i =>
              readA (iterateNext next s0 i)).flatten
        ∧ (ComputeSamples next readC readA readG r wg s0).2.2.2
          = iterateNext next s0 r.end_.toNat := by
  have hall : scheduledSteps ⟨0, N, 1⟩ ((⟨0, N, 1⟩ : StepsRange).end_.toNat)
      = List.range N.toNat := by
    unfold scheduledSteps
    apply List.filter_eq_self.mpr
    intro i _
    simp [recordedAt, Int.emod_one, Int.natCast_nonneg]
  have hflatlen : ∀ (g : St → List (List ℚ)), (∀ s, (g s).length = B) →
      ∀ (is : List Nat),
      ((is.map fun i => g (iterateNext next s0 i)).flatten).length
        = is.length * B := by
    intro g hg is
    rw [List.length_flatten, List.map_map]
    have : (List.length ∘ fun i => g (iterateNext next s0 i))
        = fun _ : Nat => B := by
      funext i
      exact hg _
    rw [this, List.map_const', List.sum_replicate, smul_eq_mul]
  have hflatlenA : ∀ (g : St → List ℂ), (∀ s, (g s).length = B) →
      ∀ (is : List Nat),
      ((is.map fun i => g (iterateNext next s0 i)).flatten).length
        = is.length * B := by
    intro g hg is
    rw [List.length_flatten, List.map_map]
    have : (List.length ∘ fun i => g (iterateNext next s0 i))
        = fun _ : Nat => B := by
      funext i
      exact hg _
    rw [this, List.map_const', List.sum_replicate, smul_eq_mul]
  refine ⟨?_, ?_, ?_, ?_⟩
  · rw [computeSamples_closed, hall]
    simpa using hflatlen readC hC (List.range N.toNat)
  · rw [computeSamples_closed, hall]
    simpa using hflatlenA readA hA (List.range N.toNat)
  · rw [computeSamples_closed]
    simp
  · intro r wg
    rw [computeSamples_closed]
    exact ⟨rfl, rfl, rfl⟩

/-- C7 witness: a counting driver with batch size 1 and schedule (0, 2, 1):
two rows, two amplitudes, no gradient output, and the general closed form. -/
theorem computeSamples_spec_witness :
    (ComputeSamples (fun (_ : Nat) (n : Nat) => n + 1) (fun n : Nat => [[(n : ℚ)]])
        (fun n : Nat => [(n : ℂ)]) (fun _ => []) ⟨0, 2, 1⟩ false 0).1.length
        = (2 : Int).toNat * 1
    ∧ (ComputeSamples (fun (_ : Nat) (n : Nat) => n + 1) (fun n : Nat => [[(n : ℚ)]])
        (fun n : Nat => [(n : ℂ)]) (fun _ => []) ⟨0, 2, 1⟩ false
        0).2.1.length = (2 : Int).toNat * 1
    ∧ (ComputeSamples (fun (_ : Nat) (n : Nat) => n + 1) (fun n : Nat => [[(n : ℚ)]])
        (fun n : Nat => [(n : ℂ)]) (fun _ => []) ⟨0, 2, 1⟩ false 0).2.2.1
        = none
    ∧ ∀ (r : StepsRange) (wg : Bool),
        (ComputeSamples (fun (_ : Nat) (n : Nat) => n + 1) (fun n : Nat => [[(n : ℚ)]])
            (fun n : Nat => [(n : ℂ)]) (fun _ => []) r wg 0).1
          = ((scheduledSteps r r.end_.toNat).map fun i =>
              [[((iterateNext (fun _ n => n + 1) (0 : Nat) i : Nat) :
                ℚ)]]).flatten
        ∧ (ComputeSamples (fun (_ : Nat) (n : Nat) => n + 1) (fun n : Nat => [[(n : ℚ)]])
            (fun n : Nat => [(n : ℂ)]) (fun _ => []) r wg 0).2.1
          = ((scheduledSteps r r.end_.toNat).map fun i =>
              [((iterateNext (fun _ n => n + 1) (0 : Nat) i : Nat) :
                ℂ)]).flatten
        ∧ (ComputeSamples (fun (_ : Nat) (n : Nat) => n + 1) (fun n : Nat => [[(n : ℚ)]])
            (fun n : Nat => [(n : ℂ)]) (fun _ => []) r wg 0).2.2.2
          = iterateNext (fun _ n => n + 1) 0 r.end_.toNat :=
  computeSamples_spec (fun (_ : Nat) (n : Nat) => n + 1)
    (fun n : Nat => [[(n : ℚ)]]) (fun n : Nat => [(n : ℂ)]) (fun _ => [])
    (0 : Nat) 1 (fun _ => rfl) (fun _ => rfl) 2 (by decide)

/-! ### GradientEstimator lemmas -/

theorem zipWith_const_right (f : ℂ → ℂ → ℂ) (c : ℂ) :
    ∀ (l E : List ℂ), l.length = E.length → (∀ e ∈ E, e = c) →
      List.zipWith f l E = l.map fun o => f o c := by
  intro l
  induction l with
  | nil => intro E _ _; rfl
  | cons o l ih =>
      intro E h hc
      cases E with
      | nil => exact absurd h (by simp)
      | cons e E =>
          have he : e = c := hc e (by simp)
          simp only [List.zipWith_cons_cons, List.map_cons]
          rw [he, ih E (by simpa using h)
            (fun x hx => hc x (List.mem_cons_of_mem _ hx))]

theorem cmean_conj (v : List ℂ) :
    (starRingEnd ℂ) (cmean v) = cmean (v.map (starRingEnd ℂ)) := by
  unfold cmean
  rw [map_div₀, map_list_sum, map_natCast, List.length_map]

theorem grad_entry_zero (col E : List ℂ) (c : ℂ)
    (hlen : col.length = E.length) (hc : ∀ e ∈ E, e = c) :
    cmean (List.zipWith (fun o e => (starRingEnd ℂ) o * e) col E)
      - (starRingEnd ℂ) (cmean col) * cmean E = 0 := by
  rw [zipWith_const_right _ c col E hlen hc, cmean_conj]
  unfold cmean
  rw [List.sum_map_mul_right, List.length_map, List.length_map,
    List.sum_eq_card_nsmul E c hc, hlen, nsmul_eq_mul]
  rcases Nat.eq_zero_or_pos E.length with h0 | h0
  · simp [h0]
  · have hne : (E.length : ℂ) ≠ 0 := by
      exact_mod_cast Nat.pos_iff_ne_zero.mp h0
    field_simp

/-- C8: Gradient returns the covariance estimator
grad_k = mean(conj(O_k) * E) - conj(mean(O_k)) * mean(E) for every
parameter column k, and in particular the exact zero vector whenever the
local-value vector is constant across samples. -/
theorem gradient_spec (E : List ℂ) (O : List (List ℂ)) :
    (∀ k, k < (O.headD []).length →
        (Gradient E O).getD k 0
          = cmean (List.zipWith (fun o e => (starRingEnd ℂ) o * e)
              (column O k) E)
            - (starRingEnd ℂ) (cmean (column O k)) * cmean E)
    ∧ ∀ c : ℂ, O.length = E.length → (∀ e ∈ E, e = c) →
        ∀ g ∈ Gradient E O, g = 0 := by
  constructor
  · intro k hk
    rw [Gradient, getD_range_map _ _ k 0 hk]
  · intro c hlen hc g hg
    simp only [Gradient, List.mem_map, List.mem_range] at hg
    obtain ⟨k, _, hgk⟩ := hg
    rw [← hgk]
    exact grad_entry_zero (column O k) E c
      (by rw [column, List.length_map, hlen]) hc

/-- C8 witness: for the local-value vector [2] and the 1x1 log-derivative
matrix [[1]]: the entry formula holds for every column, and since [2] is
constant the gradient is the zero vector. -/
theorem gradient_spec_witness :
    (∀ k, k < (([[1]] : List (List ℂ)).headD []).length →
        (Gradient [2] [[1]]).getD k 0
          = cmean (List.zipWith (fun o e => (starRingEnd ℂ) o * e)
              (column [[1]] k) [2])
            - (starRingEnd ℂ) (cmean (column [[1]] k)) * cmean [2])
    ∧ ∀ c : ℂ, ([[1]] : List (List ℂ)).length = ([2] : List ℂ).length →
        (∀ e ∈ ([2] : List ℂ), e = c) → ∀ g ∈ Gradient [2] [[1]], g = 0 :=
  gradient_spec [2] [[1]]

/-! ### LocalValueEstimator lemmas -/

theorem chunkedMap_eq_map {α β : Type} (f : α → β) (w : Nat) :
    ∀ (n : Nat) (xs : List α), xs.length ≤ n →
      chunkedMap f w xs = xs.map f := by
  intro n
  induction n with
  | zero =>
      intro xs h
      cases xs with
      | nil => rw [chunkedMap]; rfl
      | cons x rest => exact absurd h (by simp)
  | succ m ih =>
      intro xs h
      cases xs with
      | nil => rw [chunkedMap]; rfl
      | cons x rest =>
          rw [chunkedMap]
          rw [ih (rest.drop (w - 1)) (by
            have : rest.length ≤ m := by simpa using h
            simp only [List.length_drop]
            omega)]
          rw [← List.map_append, List.take_append_drop]
          rfl

theorem splitCombine_closed (logPsi : List ℚ → ℂ) :
    ∀ (sections : List (List (List ℚ × ℂ))) (values : List ℂ),
      splitCombine sections
          (((sections.map fun sec => sec.map Prod.fst).flatten).map logPsi)
          values
        = List.zipWith (fun sec v =>
            (sec.map fun p => p.2 * Complex.exp (logPsi p.1 - v)).sum)
            sections values := by
  intro sections
  induction sections with
  | nil => intro values; rfl
  | cons sec rest ih =>
      intro values
      cases values with
      | nil => rfl
      | cons v vs =>
          simp only [List.map_cons, List.flatten_cons, List.map_append]
          rw [splitCombine]
          rw [List.take_left' (by simp), List.drop_left' (by simp)]
          rw [ih vs, List.map_map, List.zipWith_map_right, List.zipWith_same]
          simp [Function.comp]

theorem localValuesV2_closed (samples : List (List ℚ)) (values : List ℂ)
    (logPsi : List ℚ → ℂ) (conns : List ℚ → List (List ℚ × ℂ)) (w : Nat) :
    LocalValuesV2 samples values logPsi conns w
      = List.zipWith (fun c v =>
          ((conns c).map fun p => p.2 * Complex.exp (logPsi p.1 - v)).sum)
          samples values := by
  show splitCombine (samples.map conns)
      (chunkedMap logPsi w
        (((samples.map conns).map fun sec => sec.map Prod.fst).flatten))
      values = _
  rw [chunkedMap_eq_map logPsi w _ _ le_rfl,
    splitCombine_closed logPsi (samples.map conns) values,
    List.zipWith_map_left]

/-- C9: LocalValuesV2 equals the per-sample closed form (so per-sample term
sums never mix samples), its value is independent of the evaluation batch
width, and on the identity operator with matrix element 1 it returns the
all-ones vector. -/
theorem localValues_spec (samples : List (List ℚ)) (values : List ℂ)
    (logPsi : List ℚ → ℂ) (conns : List ℚ → List (List ℚ × ℂ))
    (w w' : Nat) :
    (LocalValuesV2 samples values logPsi conns w
      = List.zipWith (fun c v =>
          ((conns c).map fun p => p.2 * Complex.exp (logPsi p.1 - v)).sum)
          samples values)
    ∧ LocalValuesV2 samples values logPsi conns w
        = LocalValuesV2 samples values logPsi conns w'
    ∧ LocalValuesV2 samples (samples.map logPsi) logPsi
          (fun c => [(c, 1)]) w
        = List.replicate samples.length 1 := by
  refine ⟨localValuesV2_closed samples values logPsi conns w,
    by rw [localValuesV2_closed, localValuesV2_closed], ?_⟩
  rw [localValuesV2_closed, List.zipWith_map_right, List.zipWith_same]
  have hone : (fun c : List ℚ =>
      (([(c, (1 : ℂ))].map fun p =>
        p.2 * Complex.exp (logPsi p.1 - logPsi c)).sum))
      = fun _ : List ℚ => (1 : ℂ) := by
    funext cfg
    simp [Complex.exp_zero]
  simp only [hone, List.map_const']

/-- C5 witness: the schedule (0, 5, 2) has size 3, which is both the count of
scheduled indices in [0, 5) and the ceiling of 5/2. -/
theorem stepsRange_size_count_witness :
    (StepsRange.mk 0 5 2).size
        = ((stepInterval 0 5).countP fun i => (i - 0) % 2 == 0)
    ∧ (StepsRange.mk 0 5 2).size = ⌈(((5 - 0 : Int) : ℚ) / ((2 : Int) : ℚ))⌉ :=
  stepsRange_size_count 0 5 2 (by decide) (by decide)

/-- C6: StepsRange construction succeeds exactly when start < end and
stride > 0, and otherwise fails eagerly with an invalid-argument error
surfaced to the caller. -/
theorem stepsRange_make_valid (a b s : Int) :
    (StepsRange.make (a, b, s) = Except.ok (StepsRange.mk a b s)
        ↔ (a < b ∧ 0 < s))
    ∧ (StepsRange.make (a, b, s) = Except.error "invalid argument"
        ↔ (b ≤ a ∨ s ≤ 0)) := by
  by_cases h : a < b ∧ 0 < s
  · have hmk : StepsRange.make (a, b, s) = Except.ok ⟨a, b, s⟩ := by
      simp [StepsRange.make, StepsRange.checkValid, h]
    rw [hmk]
    refine ⟨⟨fun _ => h, fun _ => rfl⟩, ⟨fun hc => ?_, fun hc => ?_⟩⟩
    · exact absurd hc (by simp)
    · exact absurd h (by omega)
  · have hmk : StepsRange.make (a, b, s) = Except.error "invalid argument" := by
      simp [StepsRange.make, StepsRange.checkValid, h]
    rw [hmk]
    refine ⟨⟨fun hc => ?_, fun hc => ?_⟩, ⟨fun _ => ?_, fun _ => rfl⟩⟩
    · exact absurd hc (by simp)
    · exact absurd hc h
    · omega

end Netket
